import Mathlib

/-!
Shallow embedding of the computational cores of the AudioPlayer repository:
the waveform decimation engine (`src/audioplayer/waveform.py`), the waveform
scheduler/cache (`src/audioplayer/controllers/waveform_controller.py`,
`src/audioplayer/main_window.py`) and the channel routing engine with its
routed-file cache (`src/app.py`).

Numeric conventions: Python floats are modelled as rationals (`ℚ`), numpy
arrays as (nested) lists, Python dicts as insertion-ordered association
lists.  Machine-float rounding is not modelled; all arithmetic is exact.
-/

namespace AudioPlayer

/-! ### Indexed map helper

`mapWithIndex f l` is numpy-style elementwise application where the function
also sees the element's index (used for per-column operations on row-major
matrices). -/

def mapWithIndex (f : ℕ → α → β) : List α → List β
  | [] => []
  | a :: l => f 0 a :: mapWithIndex (fun i x => f (i + 1) x) l

/-! ## Waveform decimation engine (`WaveformJob.run`, src/audioplayer/waveform.py)

The engine reads the file in chunks.  For each chunk it takes absolute
values, computes every frame's destination bin index
`(frame_pos + i) // bucket` (clamping indices `≥ bins` down to `bins - 1`)
and folds each frame's absolute sample into the accumulator with
`np.maximum.at`, per channel, for the first
`min(accumulator channels, chunk channels)` channels.

The accumulator `amp` (shape `bins × channels` in the source) is represented
column-major: `ampCols` is a list of `channels` columns, each of length
`bins`, matching the per-column `np.maximum.at(amp[:, ch], idx, ...)` calls. -/

/-- `bucket = max(1, ceil(total_frames / points))` (waveform.py line 64). -/
def bucketOf (totalFrames points : ℕ) : ℕ :=
  max 1 ((totalFrames + points - 1) / points)

/-- `bins = max(1, ceil(total_frames / bucket))` (waveform.py line 65). -/
def binsOf (totalFrames bucket : ℕ) : ℕ :=
  max 1 ((totalFrames + bucket - 1) / bucket)

/-- Destination bin of the frame at absolute position `pos`:
`idx = pos // bucket`, then `idx[idx >= bins] = bins - 1`
(waveform.py lines 81-82). -/
def clampIdx (bucket bins pos : ℕ) : ℕ :=
  if bins ≤ pos / bucket then bins - 1 else pos / bucket

/-- Width (channel count) of a rectangular chunk, `chunk.shape[1]`. -/
def chunkWidth (chunk : List (List ℚ)) : ℕ := (chunk.headD []).length

/-- The `(index, value)` pairs fed to `np.maximum.at` for channel `c` of a
chunk starting at absolute frame position `pos`: the destination bin paired
with the frame's absolute sample value in channel `c`. -/
def colPairs (bucket bins pos c : ℕ) (chunk : List (List ℚ)) : List (ℕ × ℚ) :=
  mapWithIndex (fun i f => (clampIdx bucket bins (pos + i), |f.getD c 0|)) chunk

/-- `np.maximum.at (col, idx, vals)`: sequential unbuffered fold,
`col[i] = max(col[i], v)` for each pair `(i, v)`. -/
def maxAt (col : List ℚ) (pairs : List (ℕ × ℚ)) : List ℚ :=
  pairs.foldl (fun acc p => acc.set p.1 (max (acc.getD p.1 0) p.2)) col

/-- One loop iteration of `WaveformJob.run` (waveform.py lines 79-85) on a
chunk beginning at absolute frame position `pos`: the first
`min(amp.shape[1], abs_chunk.shape[1])` accumulator columns absorb the
chunk's bin/value pairs, the remaining columns are untouched. -/
def processChunk (bucket bins pos : ℕ) (ampCols : List (List ℚ))
    (chunk : List (List ℚ)) : List (List ℚ) :=
  mapWithIndex
    (fun c col =>
      if c < min ampCols.length (chunkWidth chunk) then
        maxAt col (colPairs bucket bins pos c chunk)
      else col)
    ampCols

/-- The whole streaming loop over the successive (non-empty) chunk reads,
threading `frame_pos` (waveform.py lines 70-86). -/
def runChunks (bucket bins : ℕ) : ℕ → List (List ℚ) → List (List (List ℚ)) → List (List ℚ)
  | _, ampCols, [] => ampCols
  | pos, ampCols, chunk :: rest =>
      runChunks bucket bins (pos + chunk.length) (processChunk bucket bins pos ampCols chunk) rest

/-! Specification-side description of the decimation (one frame at a time,
as stated by the spec): each streamed frame goes to the bin
`floor(pos / bucket)` clamped to `bins - 1`, and updates that bin's
per-channel value to the max of its current value and the frame's absolute
sample value (peak-hold, never averaging). -/

/-- The spec's destination bin: `floor(pos / bucket)` clamped to `bins - 1`. -/
def specBin (bucket bins pos : ℕ) : ℕ := min (pos / bucket) (bins - 1)

/-- Peak-hold update of a single frame at absolute position `pos`, exactly as
the spec sentence describes it. -/
def frameStep (bucket bins pos : ℕ) (ampCols : List (List ℚ)) (frame : List ℚ) :
    List (List ℚ) :=
  mapWithIndex
    (fun c col =>
      if c < min ampCols.length frame.length then
        col.set (specBin bucket bins pos)
          (max (col.getD (specBin bucket bins pos) 0) |frame.getD c 0|)
      else col)
    ampCols

/-- Frame-at-a-time decimation over a flat list of frames. -/
def runFrames (bucket bins : ℕ) : ℕ → List (List ℚ) → List (List ℚ) → List (List ℚ)
  | _, ampCols, [] => ampCols
  | pos, ampCols, f :: fs =>
      runFrames bucket bins (pos + 1) (frameStep bucket bins pos ampCols f) fs

/-- A chunk is rectangular when every frame has the chunk's width (numpy
2-D arrays always are). -/
def Rectangular (chunk : List (List ℚ)) : Prop :=
  ∀ f ∈ chunk, f.length = chunkWidth chunk

instance (chunk : List (List ℚ)) : Decidable (Rectangular chunk) :=
  decidable_of_iff (∀ f ∈ chunk, f.length = chunkWidth chunk) Iff.rfl

/-! ## Cancellation model of `WaveformJob.run` (waveform.py lines 73-98)

The cooperative cancellation flag is written by `cancel()` from another
thread and polled by the worker: once at the top of every loop iteration
(`while not self._cancelled`) and once after the loop
(`if self._cancelled: return`).  We index the successive flag reads by a
counter `t`; `flag t` is the value observed by the `t`-th read.  The flag
of a real job is monotone (it is only ever set, never cleared).  The result
is `some finalAccumulator` when `resultReady` is emitted and `none` when the
job returns without emitting a final result. -/

def runJobLoop (bucket bins : ℕ) (flag : ℕ → Bool) :
    ℕ → ℕ → List (List (List ℚ)) → List (List ℚ) → Option (List (List ℚ))
  | t, _, [], ampCols =>
      -- Guard read `t`, then the empty read breaks the loop (or the guard
      -- exits it); either way the final check is the next read, `t + 1`.
      if flag (t + 1) then none else some ampCols
  | t, pos, chunk :: rest, ampCols =>
      if flag t then
        -- Guard exit: straight to the final cancellation check.
        if flag (t + 1) then none else some ampCols
      else
        runJobLoop bucket bins flag (t + 1) (pos + chunk.length) rest
          (processChunk bucket bins pos ampCols chunk)

/-! ## Non-finite sample values and `_align_wave_channels`
(src/audioplayer/controllers/waveform_controller.py lines 39-55)

`FVal` models a float32 cell that may hold a non-finite value.  The
controller sanitizes amplitude arrays with
`np.nan_to_num(amp, nan=0.0, posinf=1.0, neginf=0.0)` and then clips to
`[0, 1]`.  The embedding takes the amplitude array already in 2-D
`bins × channels` form (the `ndim` reshaping branches of the source
normalize other ranks to that form). -/

inductive FVal
  | fin (q : ℚ)
  | nan
  | pinf
  | ninf
deriving DecidableEq

/-- `np.nan_to_num(v, nan=0.0, posinf=1.0, neginf=0.0)` on one cell. -/
def nanToNum (v : FVal) : ℚ :=
  match v with
  | .fin q => q
  | .nan => 0
  | .pinf => 1
  | .ninf => 0

/-- `np.clip(v, 0.0, 1.0)` on one cell. -/
def clip01 (q : ℚ) : ℚ := min 1 (max 0 q)

/-- `_align_wave_channels`: truncate the time axis and the amplitude rows to
a common length, sanitize non-finite amplitude cells, clip amplitudes to
`[0, 1]`.  Returns empty arrays when either input is empty. -/
def alignWaveChannels (x : List ℚ) (amp : List (List FVal)) :
    List ℚ × List (List ℚ) :=
  if x.length = 0 ∨ (amp.map List.length).sum = 0 then ([], [])
  else
    (x.take (min x.length amp.length),
      (amp.take (min x.length amp.length)).map
        (fun row => row.map (fun v => clip01 (nanToNum v))))

/-! ## Python-dict association lists

Insertion-ordered association lists with Python `dict` semantics:
assignment to an existing key updates the value in place (keeping the key's
position), assignment to a new key appends, `next(iter(d))` is the first
key, `pop` removes by key. -/

def dictGet [DecidableEq κ] (d : List (κ × β)) (k : κ) : Option β :=
  (d.find? (fun e => decide (e.1 = k))).map Prod.snd

def dictSet [DecidableEq κ] (d : List (κ × β)) (k : κ) (v : β) : List (κ × β) :=
  if (d.find? (fun e => decide (e.1 = k))).isSome then
    d.map (fun e => if e.1 = k then (k, v) else e)
  else d ++ [(k, v)]

def dictPop [DecidableEq κ] (d : List (κ × β)) (k : κ) : List (κ × β) :=
  d.eraseP (fun e => decide (e.1 = k))

/-! ## Waveform scheduler state
(src/audioplayer/main_window.py, src/audioplayer/controllers/waveform_controller.py)

`WaveEntry` is a `wave_cache` value `(signature, x, amplitudes)`;
`PartialEntry` is a `wave_partial` value
`(signature, x, amp, filled_bins, total_bins)`. -/

structure WaveEntry where
  signature : String
  xAxis : List ℚ
  amp : List (List ℚ)
deriving DecidableEq

structure PartialEntry where
  signature : String
  xAxis : List ℚ
  amp : List (List ℚ)
  filledBins : ℕ
  totalBins : ℕ
deriving DecidableEq

abbrev WaveCache := List (String × WaveEntry)

/-- The scheduler-relevant state of the player window.  `activeThread` and
`preloadThread` record whether the corresponding `WaveformJob` object is
present (`self._active_wave_thread is not None`, etc.). -/
structure SchedState where
  waveCache : WaveCache
  wavePartial : List (String × PartialEntry)
  activeRequestId : ℕ
  activePath : String
  activeSignature : String
  activeFailed : Bool
  activeThread : Bool
  preloadThread : Bool
  preloadPath : String
  preloadQueue : List String
  preloadSet : List String
  tracks : List String
  currentIndex : Option ℕ
deriving DecidableEq

/-- `_current_track_path`: the path of the currently selected track, or `""`
when no track is selected or the index is out of bounds. -/
def currentTrackPath (st : SchedState) : String :=
  match st.currentIndex with
  | none => ""
  | some i => if i < st.tracks.length then st.tracks.getD i "" else ""

/-- `_cache_get(path, signature)` (main_window.py lines 1392-1396): return
the cached entry only when its stored signature matches. -/
def cacheGet (cache : WaveCache) (path signature : String) : Option WaveEntry :=
  match dictGet cache path with
  | some e => if e.signature = signature then some e else none
  | none => none

/-- `_cache_store(path, signature, x, amplitudes)` (main_window.py lines
1398-1402): insert/overwrite, then if the dict holds more than 40 entries
pop `next(iter(dict))` — the first (oldest-inserted) key. -/
def cacheStore (cache : WaveCache) (path : String) (e : WaveEntry) : WaveCache :=
  if 40 < (dictSet cache path e).length then
    match dictSet cache path e with
    | [] => dictSet cache path e
    | e0 :: _ => dictPop (dictSet cache path e) e0.1
  else dictSet cache path e

/-- `_remove_from_preload_queue(path)` (waveform_controller.py lines 486-489). -/
def removeFromPreloadQueue (st : SchedState) (path : String) : SchedState :=
  if path ∈ st.preloadSet then
    { st with
      preloadSet := st.preloadSet.erase path
      preloadQueue := st.preloadQueue.filter (fun p => decide (p ≠ path)) }
  else st

/-- What `_load_waveform_for_track` decides to do for the request. -/
inductive LoadAction
  | useCache
  | attachActive
  | attachPreload
  | startActive
  | startPreload
  | enqueueFront
deriving DecidableEq

/-- The branch structure of `_load_waveform_for_track` after the
`_remove_from_preload_queue` call, operating on the already-updated state. -/
def loadWaveformBranches (st : SchedState) (path sig : String) :
    SchedState × LoadAction :=
  match cacheGet st.waveCache path sig with
  | some _ => (st, .useCache)
  | none =>
    if st.activePath = path ∧ st.activeThread then (st, .attachActive)
    else if st.preloadPath = path ∧ st.preloadThread then (st, .attachPreload)
    else if ¬ st.activeThread then (st, .startActive)
    else if ¬ st.preloadThread then (st, .startPreload)
    else if path ∉ st.preloadSet then
      ({ st with
          preloadQueue := path :: st.preloadQueue
          preloadSet := path :: st.preloadSet }, .enqueueFront)
    else (st, .enqueueFront)

/-- One `while` iteration prologue of `_start_next_preload`
(waveform_controller.py lines 515-517): `pop(0)` the queue head and discard
it from the preload set. -/
def preloadPopState (st : SchedState) (path : String) (rest : List String) :
    SchedState :=
  { st with preloadQueue := rest, preloadSet := st.preloadSet.erase path }

/-- The queue scan of `_start_next_preload` (waveform_controller.py lines
515-538): pop entries in FIFO order, skipping the Active path, paths whose
signature computation raises, and paths already cached; the first remaining
path gets a preload `WaveformJob` worker (`preloadThread := true`) and is
returned.  `sigF` stands for `_file_signature` (`none` models the raised
exception); the fuel is the queue length, one pop per iteration. -/
def startNextPreloadLoop (sigF : String → Option String) :
    ℕ → SchedState → SchedState × Option String
  | 0, st => (st, none)
  | fuel + 1, st =>
      match st.preloadQueue with
      | [] => (st, none)
      | path :: rest =>
          if path = (preloadPopState st path rest).activePath then
            startNextPreloadLoop sigF fuel (preloadPopState st path rest)
          else
            match sigF path with
            | none => startNextPreloadLoop sigF fuel (preloadPopState st path rest)
            | some sig =>
                if (cacheGet (preloadPopState st path rest).waveCache path sig).isSome then
                  startNextPreloadLoop sigF fuel (preloadPopState st path rest)
                else
                  ({ preloadPopState st path rest with
                      preloadThread := true, preloadPath := path }, some path)

/-- `_start_next_preload` (waveform_controller.py lines 511-538): a no-op
while a preload worker is running, otherwise the queue scan above.  The
second component is the path whose preload decode job was started, if any. -/
def startNextPreload (sigF : String → Option String) (st : SchedState) :
    SchedState × Option String :=
  if st.preloadThread then (st, none)
  else startNextPreloadLoop sigF st.preloadQueue.length st

/-- `_load_waveform_for_track(path)` (waveform_controller.py lines 299-343),
with the file signature of the requested path passed in (the source computes
it from the file system) and `_file_signature` abstracted as `sigF` for the
preload scan.  Returns the updated scheduler state, which action is taken
(`startActive`/`startPreload` stand for handing the path to a fresh
`WaveformJob` worker), and — for the cache-hit branch, which calls
`_start_next_preload()` before returning — the path whose preload decode was
started, if any. -/
def loadWaveformForTrack (sigF : String → Option String) (st : SchedState)
    (path sig : String) : SchedState × LoadAction × Option String :=
  match loadWaveformBranches (removeFromPreloadQueue st path) path sig with
  | (st', LoadAction.useCache) =>
      ((startNextPreload sigF st').1, LoadAction.useCache, (startNextPreload sigF st').2)
  | (st', a) => (st', a, none)

/-- The only mutations `wave_cache` undergoes after its empty initialization
(main_window.py line 158): `_cache_store` (main_window.py lines 1398-1402)
and `wave_cache.clear()` (waveform_controller.py line 223). -/
inductive CacheOp
  | store (path : String) (e : WaveEntry)
  | clear
deriving DecidableEq

def applyCacheOp (cache : WaveCache) : CacheOp → WaveCache
  | .store path e => cacheStore cache path e
  | .clear => []

/-- `_on_active_wave_finished(request_id, path, x, amp)`
(waveform_controller.py lines 427-440): discard the callback unless both the
request id and the path match the current Active job; on a match, align the
arrays, drop the partial entry, store the final result in the cache.  The
returned Bool tells whether the result was delivered to the display
(`_set_waveform_from_channels` for the currently shown track). -/
def onActiveWaveFinished (st : SchedState) (requestId : ℕ) (path : String)
    (x : List ℚ) (amp : List (List FVal)) : SchedState × Bool :=
  if requestId ≠ st.activeRequestId ∨ path ≠ st.activePath then (st, false)
  else
    let aligned := alignWaveChannels x amp
    let entry : WaveEntry := ⟨st.activeSignature, aligned.1, aligned.2⟩
    let st' := { st with
      activeFailed := false
      wavePartial := dictPop st.wavePartial path
      waveCache := cacheStore st.waveCache path entry }
    (st', currentTrackPath st' = path)

/-! ## Channel routing engine (`WaveformPlayer`, src/app.py)

The boolean routing matrix is a fixed 12×12 grid
(`len(ROUTING_CHANNEL_LABELS) = 12`); cells are stored as ints 0/1. -/

/-- `ROUTING_CHANNEL_LABELS` (app.py lines 172-185). -/
def routingChannelLabels : List String :=
  ["1", "2", "3", "4", "5", "6", "7", "8", "9", "10", "11", "12"]

/-- `_default_routing_matrix`: the 12×12 identity (app.py lines 909-915). -/
def defaultRoutingMatrix : List (List ℕ) :=
  (List.range routingChannelLabels.length).map (fun i =>
    (List.range routingChannelLabels.length).map (fun j => if i = j then 1 else 0))

/-- `_clone_routing_matrix`: normalize any matrix to a 12×12 grid of 0/1,
reading out-of-range cells as 0 (app.py lines 917-925). -/
def cloneRoutingMatrix (matrix : List (List ℕ)) : List (List ℕ) :=
  (List.range routingChannelLabels.length).map (fun r =>
    (List.range routingChannelLabels.length).map (fun c =>
      if ((matrix.getD r []).getD c 0) ≠ 0 then 1 else 0))

/-- `_serialize_routing_matrix`: clone, then join the rows as 0/1 strings
with `"|"` (app.py lines 927-933). -/
def serializeRoutingMatrix (matrix : List (List ℕ)) : String :=
  String.intercalate "|" ((cloneRoutingMatrix matrix).map (fun row =>
    String.join (row.map (fun cell => if cell ≠ 0 then "1" else "0"))))

/-- `ROUTING_TARGET_CHANNELS.get(mode, 0)` (app.py lines 164-170), the
preset-mode branch of `_routing_target_channels`. -/
def routingTargetChannelsFor (mode : String) : ℕ :=
  if mode = "auto" then 0
  else if mode = "stereo" then 2
  else if mode = "surround_5_1" then 6
  else if mode = "surround_7_1" then 8
  else if mode = "immersive_7_1_4" then 12
  else 0

/-- `_routing_matrix_preset(target_channels)` (app.py lines 960-980):
`target ≤ 0` falls back to the identity; target 2 is the fixed stereo
fold-down (left bus {0,2,4,6,8,10}, right bus {1,2,5,7,9,11}, LFE row 3
into both); any other target routes source `i` to `min(i, target-1)`. -/
def routingMatrixPreset (targetChannels : ℕ) : List (List ℕ) :=
  if targetChannels = 0 then defaultRoutingMatrix
  else
    if max 1 (min routingChannelLabels.length targetChannels) = 2 then
      (List.range routingChannelLabels.length).map (fun src =>
        (List.range routingChannelLabels.length).map (fun col =>
          if col = 0 ∧ (src ∈ [0, 2, 4, 6, 8, 10] ∨ src = 3) then 1
          else if col = 1 ∧ (src ∈ [1, 2, 5, 7, 9, 11] ∨ src = 3) then 1
          else 0))
    else
      (List.range routingChannelLabels.length).map (fun src =>
        (List.range routingChannelLabels.length).map (fun col =>
          if col = min src (max 1 (min routingChannelLabels.length targetChannels) - 1)
          then 1 else 0))

/-- The base boolean matrix chosen by `_build_runtime_routing_matrix`
(app.py lines 1018-1025): the cloned explicit matrix in matrix mode, the
identity in `"auto"` mode, the preset otherwise. -/
def baseMatrixFor (matrixEnabled : Bool) (mode : String)
    (routingMatrix : List (List ℕ)) : List (List ℕ) :=
  if matrixEnabled then cloneRoutingMatrix routingMatrix
  else if mode = "auto" then defaultRoutingMatrix
  else routingMatrixPreset (routingTargetChannelsFor mode)

/-- `base_cols = len(base[0]) if base_rows else 0` (app.py line 1028). -/
def baseCols (base : List (List ℕ)) : ℕ :=
  if base.length = 0 then 0 else (base.headD []).length

/-- One row of the pre-normalization runtime matrix (app.py lines
1031-1039): unity gain at every checked crosspoint of base row
`min(src, base_rows - 1)`; if no cell got set and matrix mode is off, the
fallback routes the source to output `min(src, output_count - 1)`. -/
def rawRow (matrixEnabled : Bool) (base : List (List ℕ))
    (outputCount src : ℕ) : List ℚ :=
  if (¬ ((List.range outputCount).map (fun out =>
        if min src (base.length - 1) < base.length ∧ out < baseCols base ∧
            ((base.getD (min src (base.length - 1)) []).getD out 0) ≠ 0
        then (1 : ℚ) else 0)).any (fun v => decide (v ≠ 0))) ∧ matrixEnabled = false then
    ((List.range outputCount).map (fun out =>
        if min src (base.length - 1) < base.length ∧ out < baseCols base ∧
            ((base.getD (min src (base.length - 1)) []).getD out 0) ≠ 0
        then (1 : ℚ) else 0)).set (min src (outputCount - 1)) 1
  else
    (List.range outputCount).map (fun out =>
      if min src (base.length - 1) < base.length ∧ out < baseCols base ∧
          ((base.getD (min src (base.length - 1)) []).getD out 0) ≠ 0
      then (1 : ℚ) else 0)

/-- The pre-normalization `source_count × output_count` float matrix. -/
def rawMatrix (matrixEnabled : Bool) (base : List (List ℕ))
    (sourceCount outputCount : ℕ) : List (List ℚ) :=
  (List.range sourceCount).map (fun src => rawRow matrixEnabled base outputCount src)

/-- `float(np.sum(np.abs(matrix[src_idx, :])))` for one row. -/
def rowAbsSum (row : List ℚ) : ℚ := (row.map (fun v => |v|)).sum

/-- First normalization pass (app.py lines 1044-1047): every row whose
absolute sum exceeds 1 is scaled down to sum 1. -/
def rowNormalize (m : List (List ℚ)) : List (List ℚ) :=
  m.map (fun row => if 1 < rowAbsSum row then row.map (fun v => v / rowAbsSum row) else row)

/-- `float(np.sum(np.abs(matrix[:, out_idx])))` for one column. -/
def colAbsSum (m : List (List ℚ)) (j : ℕ) : ℚ :=
  (m.map (fun row => |row.getD j 0|)).sum

/-- Plain (unsigned) column sum — the "summed input gain" of one output. -/
def colSum (m : List (List ℚ)) (j : ℕ) : ℚ :=
  (m.map (fun row => row.getD j 0)).sum

/-- Second normalization pass (app.py lines 1049-1052): every column whose
absolute sum exceeds 1 is scaled down to sum 1.  The source loops over the
columns scaling each in place; a scaling touches only its own column and
each column's sum is read before that column is scaled, so the sequential
loop equals this simultaneous per-column scaling. -/
def colNormalize (m : List (List ℚ)) : List (List ℚ) :=
  m.map (fun row =>
    mapWithIndex (fun j v => if 1 < colAbsSum m j then v / colAbsSum m j else v) row)

/-- `_build_runtime_routing_matrix(source_channels, output_channels)`
(app.py lines 1015-1054), with the instance configuration
(`_audio_matrix_enabled`, `_audio_routing_mode`, `_audio_routing_matrix`)
passed explicitly.  Normalization runs only outside matrix mode. -/
def buildRuntimeRoutingMatrix (matrixEnabled : Bool) (mode : String)
    (routingMatrix : List (List ℕ)) (sourceChannels outputChannels : ℕ) :
    List (List ℚ) :=
  if matrixEnabled then
    rawMatrix matrixEnabled (baseMatrixFor matrixEnabled mode routingMatrix)
      (max 1 sourceChannels) (max 1 outputChannels)
  else
    colNormalize (rowNormalize
      (rawMatrix matrixEnabled (baseMatrixFor matrixEnabled mode routingMatrix)
        (max 1 sourceChannels) (max 1 outputChannels)))

/-! ## Routed-file cache key (`_resolve_playback_source`, app.py lines 1077-1088)

The source hashes `f"{file_signature}|{route_token}|{matrix_digest}"` with
sha1 and uses the digest as the cache key; `matrix_digest` is the truncated
sha1 of `runtime_matrix.tobytes()`.  The embedding models both digests as
their preimages (hashing idealized as injective / collision-free): two cache
keys are equal exactly when the hashed inputs are equal. -/

/-- `runtime_matrix.tobytes()`: the matrix cells in row-major order. -/
def matrixBytes (m : List (List ℚ)) : List ℚ := m.flatten

/-- The routing-configuration token (app.py lines 1082-1086). -/
def routeToken (mode : String) (matrixEnabled : Bool)
    (routingMatrix : List (List ℕ)) (sourceChannels outputChannels : ℕ) : String :=
  "v4|" ++ mode ++ "|m" ++ (if matrixEnabled then "1" else "0") ++ "|" ++
    serializeRoutingMatrix routingMatrix ++ "|sc" ++ toString sourceChannels ++
    "|oc" ++ toString outputChannels

/-- The sha1 preimage of the routed-file cache key. -/
structure CacheKeyData where
  fileSignature : String
  token : String
  digestBytes : List ℚ
deriving DecidableEq

/-- The cache key computed by `_resolve_playback_source` for a source file
with signature `fileSignature` under the given routing configuration. -/
def resolveCacheKey (fileSignature mode : String) (matrixEnabled : Bool)
    (routingMatrix : List (List ℕ)) (sourceChannels outputChannels : ℕ) :
    CacheKeyData :=
  ⟨fileSignature,
    routeToken mode matrixEnabled routingMatrix sourceChannels outputChannels,
    matrixBytes
      (buildRuntimeRoutingMatrix matrixEnabled mode routingMatrix
        sourceChannels outputChannels)⟩

/-! ## Routed-audio cache trimming (`_trim_routed_audio_cache`, app.py
lines 1157-1180)

The cache is an insertion-ordered dict `cache_key → file path`.  While it
exceeds the capacity, the loop scans entries in insertion order, skips every
entry whose absolute path equals the current playback source's absolute
path, pops the first remaining entry and deletes its backing file.
`absPath` stands for `os.path.abspath`; the deleted paths are returned in
deletion order. -/

def trimLoop (absPath : String → String) (curAbs : String) (maxEntries : ℕ) :
    ℕ → List (String × String) → List String → List (String × String) × List String
  | 0, cache, deleted => (cache, deleted)
  | fuel + 1, cache, deleted =>
      if cache.length ≤ maxEntries then (cache, deleted)
      else
        match cache.find? (fun e => decide (¬ (curAbs ≠ "" ∧ absPath e.2 = curAbs))) with
        | none => (cache, deleted)
        | some e =>
            trimLoop absPath curAbs maxEntries fuel
              (cache.eraseP (fun x => decide (x.1 = e.1))) (deleted ++ [e.2])

/-- `_trim_routed_audio_cache(max_entries)` with the current playback source
path and `os.path.abspath` passed in.  One loop iteration removes exactly
one entry, so `cache.length` iterations always suffice. -/
def trimRoutedAudioCache (absPath : String → String) (currentSource : String)
    (maxEntries : ℕ) (cache : List (String × String)) :
    List (String × String) × List String :=
  trimLoop absPath (if currentSource = "" then "" else absPath currentSource)
    (max 1 maxEntries) cache.length cache []

/-! ## Routed-file rendering (`_resolve_playback_source`, app.py lines
1102-1136)

The render streams the source in chunks, matrix-multiplies each chunk into
the output channel layout, clips to `[-1, 1]` and writes to a temporary
file which is atomically renamed over the cache path on success.  Any
exception (modelled by an `ioError` read step; header probing failure is
modelled by `probeOk = false`) unlinks the temporary file and falls back to
the original source path.  The file system is the list of existing paths. -/

inductive ReadStep
  | chunk (data : List (List ℚ))
  | ioError
deriving DecidableEq

/-- `np.clip(v, -1.0, 1.0)` on one routed sample. -/
def clipSample (q : ℚ) : ℚ := max (-1) (min 1 q)

/-- `np.matmul(chunk[:, :source_channels], runtime_matrix[:k, :])` followed
by the clip, one output frame per input frame. -/
def routeChunk (matrix : List (List ℚ)) (sourceChannels outputChannels : ℕ)
    (chunk : List (List ℚ)) : List (List ℚ) :=
  chunk.map (fun frame =>
    (List.range outputChannels).map (fun out =>
      clipSample
        ((mapWithIndex (fun k v => v * ((matrix.getD k []).getD out 0))
            (frame.take sourceChannels)).sum)))

def fsInsert (fs : List String) (p : String) : List String :=
  if p ∈ fs then fs else fs ++ [p]

def fsRemove (fs : List String) (p : String) : List String :=
  fs.filter (fun q => decide (q ≠ p))

/-- Result of resolving a playback source: the resulting file system, the
path handed to the playback component, and the routed frames written to the
rendered file (`none` when no render was completed). -/
structure RenderOutcome where
  fs : List String
  playbackPath : String
  written : Option (List (List ℚ))
deriving DecidableEq

def renderLoop (matrix : List (List ℚ)) (sourceChannels outputChannels : ℕ)
    (source tmp routed : String) :
    List String → List ReadStep → List (List ℚ) → RenderOutcome
  | fs, [], acc =>
      -- Reads exhausted: `os.replace(tmp_path, routed_path)` and return the
      -- rendered file.
      ⟨fsInsert (fsRemove fs tmp) routed, routed, some acc⟩
  | fs, .ioError :: _, _ =>
      -- Exception mid-stream: unlink the temp file, fall back to the source.
      ⟨fsRemove fs tmp, source, none⟩
  | fs, .chunk data :: rest, acc =>
      renderLoop matrix sourceChannels outputChannels source tmp routed fs rest
        (acc ++ routeChunk matrix sourceChannels outputChannels data)

/-- The fallible slice of `_resolve_playback_source`: probe the header
(failure returns the source path with nothing created), else open the temp
file and stream. -/
def resolveRender (probeOk : Bool) (matrix : List (List ℚ))
    (sourceChannels outputChannels : ℕ) (fs : List String)
    (source tmp routed : String) (steps : List ReadStep) : RenderOutcome :=
  if probeOk then
    renderLoop matrix sourceChannels outputChannels source tmp routed
      (fsInsert fs tmp) steps []
  else ⟨fs, source, none⟩

@[simp] theorem mapWithIndex_nil (f : ℕ → α → β) : mapWithIndex f [] = [] := rfl

@[simp] theorem mapWithIndex_cons (f : ℕ → α → β) (a : α) (l : List α) :
    mapWithIndex f (a :: l) = f 0 a :: mapWithIndex (fun i x => f (i + 1) x) l := rfl

@[simp] theorem length_mapWithIndex (f : ℕ → α → β) (l : List α) :
    (mapWithIndex f l).length = l.length := by
  induction l generalizing f with
  | nil => rfl
  | cons a l ih => simp [mapWithIndex, ih]

theorem mapWithIndex_congr {f g : ℕ → α → β} (l : List α)
    (h : ∀ i a, f i a = g i a) : mapWithIndex f l = mapWithIndex g l := by
  induction l generalizing f g with
  | nil => rfl
  | cons a l ih =>
    rw [mapWithIndex_cons, mapWithIndex_cons, h 0 a]
    exact congrArg _ (ih (fun i a => h (i + 1) a))

theorem mapWithIndex_eq_self {f : ℕ → α → α} (l : List α)
    (h : ∀ i a, f i a = a) : mapWithIndex f l = l := by
  induction l generalizing f with
  | nil => rfl
  | cons a l ih =>
    rw [mapWithIndex_cons, h 0 a]
    exact congrArg _ (ih (fun i a => h (i + 1) a))

theorem mapWithIndex_mapWithIndex (f g : ℕ → α → α) (l : List α) :
    mapWithIndex f (mapWithIndex g l) = mapWithIndex (fun i a => f i (g i a)) l := by
  induction l generalizing f g with
  | nil => rfl
  | cons a l ih => simp [mapWithIndex_cons, ih]

theorem getD_mapWithIndex (f : ℕ → α → α) (l : List α) (j : ℕ) (d : α)
    (h0 : f j d = d) : (mapWithIndex f l).getD j d = f j (l.getD j d) := by
  induction l generalizing f j with
  | nil => simpa using h0.symm
  | cons a l ih =>
    cases j with
    | zero => simp [mapWithIndex]
    | succ j =>
      simpa [mapWithIndex] using ih (fun i x => f (i + 1) x) j h0

theorem clampIdx_eq_specBin (bucket bins pos : ℕ) :
    clampIdx bucket bins pos = specBin bucket bins pos := by
  unfold clampIdx specBin
  rcases le_or_lt bins (pos / bucket) with h | h
  · rw [if_pos h, min_eq_right]
    omega
  · rw [if_neg (not_le.mpr h), min_eq_left]
    omega

theorem colPairs_cons (bucket bins pos c : ℕ) (f : List ℚ) (rest : List (List ℚ)) :
    colPairs bucket bins pos c (f :: rest) =
      (clampIdx bucket bins pos, |f.getD c 0|) :: colPairs bucket bins (pos + 1) c rest := by
  unfold colPairs
  rw [mapWithIndex_cons]
  exact congrArg _ (mapWithIndex_congr rest (fun i a => by
    have : pos + (i + 1) = pos + 1 + i := by omega
    rw [this]))

theorem processChunk_nil (bucket bins pos : ℕ) (ampCols : List (List ℚ)) :
    processChunk bucket bins pos ampCols [] = ampCols := by
  unfold processChunk chunkWidth
  exact mapWithIndex_eq_self ampCols (fun i a => by simp)

theorem rectangular_tail {f : List ℚ} {rest : List (List ℚ)}
    (h : Rectangular (f :: rest)) : Rectangular rest := by
  intro g hg
  cases rest with
  | nil => cases hg
  | cons g0 rest' =>
    have hw : chunkWidth (g0 :: rest') = chunkWidth (f :: f :: rest') := by
      have h0 := h g0 (by simp)
      have hf := h f (by simp)
      simp only [chunkWidth, List.headD_cons] at *
      omega
    have := h g (List.mem_cons_of_mem f hg)
    simp only [chunkWidth, List.headD_cons] at *
    have h0 := h g0 (by simp)
    simp only [chunkWidth, List.headD_cons] at h0
    omega

theorem processChunk_cons (bucket bins pos : ℕ) (ampCols : List (List ℚ))
    (f : List ℚ) (rest : List (List ℚ)) (hrect : Rectangular (f :: rest)) :
    processChunk bucket bins pos ampCols (f :: rest) =
      processChunk bucket bins (pos + 1) (frameStep bucket bins pos ampCols f) rest := by
  have hfw : f.length = chunkWidth (f :: rest) := hrect f (by simp)
  cases rest with
  | nil =>
    rw [processChunk_nil]
    unfold processChunk frameStep
    refine mapWithIndex_congr ampCols (fun c col => ?_)
    have hw : chunkWidth [f] = f.length := by
      simp [chunkWidth]
    rw [hw]
    by_cases hc : c < min ampCols.length f.length
    · rw [if_pos hc, if_pos hc, colPairs_cons]
      unfold colPairs
      rw [mapWithIndex_nil]
      unfold maxAt
      simp [clampIdx_eq_specBin]
    · rw [if_neg hc, if_neg hc]
  | cons g rest' =>
    have hgw : g.length = chunkWidth (f :: g :: rest') := hrect g (by simp)
    have hwrest : chunkWidth (g :: rest') = chunkWidth (f :: g :: rest') := by
      simpa [chunkWidth] using hgw
    have hlen : (frameStep bucket bins pos ampCols f).length = ampCols.length := by
      unfold frameStep
      exact length_mapWithIndex _ _
    unfold processChunk
    rw [hlen, hwrest, ← hfw]
    unfold frameStep
    rw [mapWithIndex_mapWithIndex]
    refine mapWithIndex_congr ampCols (fun c col => ?_)
    by_cases hc : c < min ampCols.length f.length
    · rw [if_pos hc, if_pos hc, if_pos hc, colPairs_cons]
      unfold maxAt
      simp [clampIdx_eq_specBin]
    · rw [if_neg hc, if_neg hc, if_neg hc]

theorem processChunk_eq_runFrames (bucket bins : ℕ) (chunk : List (List ℚ))
    (hrect : Rectangular chunk) :
    ∀ (pos : ℕ) (ampCols : List (List ℚ)),
      processChunk bucket bins pos ampCols chunk = runFrames bucket bins pos ampCols chunk := by
  induction chunk with
  | nil => intro pos ampCols; rw [processChunk_nil]; rfl
  | cons f rest ih =>
    intro pos ampCols
    rw [processChunk_cons bucket bins pos ampCols f rest hrect]
    rw [ih (rectangular_tail hrect) (pos + 1) (frameStep bucket bins pos ampCols f)]
    rfl

theorem runFrames_append (bucket bins : ℕ) (l1 l2 : List (List ℚ)) :
    ∀ (pos : ℕ) (ampCols : List (List ℚ)),
      runFrames bucket bins pos ampCols (l1 ++ l2) =
        runFrames bucket bins (pos + l1.length) (runFrames bucket bins pos ampCols l1) l2 := by
  induction l1 with
  | nil => intro pos ampCols; simp [runFrames]
  | cons f fs ih =>
    intro pos ampCols
    have hpos : pos + 1 + fs.length = pos + (f :: fs).length := by
      simp only [List.length_cons]
      omega
    calc runFrames bucket bins pos ampCols (f :: fs ++ l2)
        = runFrames bucket bins (pos + 1) (frameStep bucket bins pos ampCols f) (fs ++ l2) := rfl
      _ = runFrames bucket bins (pos + 1 + fs.length)
            (runFrames bucket bins (pos + 1) (frameStep bucket bins pos ampCols f) fs) l2 :=
          ih _ _
      _ = runFrames bucket bins (pos + (f :: fs).length)
            (runFrames bucket bins pos ampCols (f :: fs)) l2 := by
          rw [hpos]
          rfl

theorem runChunks_eq_runFrames (bucket bins : ℕ) (chunks : List (List (List ℚ)))
    (hrect : ∀ chunk ∈ chunks, Rectangular chunk) :
    ∀ (pos : ℕ) (ampCols : List (List ℚ)),
      runChunks bucket bins pos ampCols chunks =
        runFrames bucket bins pos ampCols chunks.flatten := by
  induction chunks with
  | nil => intro pos ampCols; rfl
  | cons c cs ih =>
    intro pos ampCols
    have hc : Rectangular c := hrect c (by simp)
    have hcs : ∀ chunk ∈ cs, Rectangular chunk :=
      fun x hx => hrect x (List.mem_cons_of_mem c hx)
    calc runChunks bucket bins pos ampCols (c :: cs)
        = runChunks bucket bins (pos + c.length) (processChunk bucket bins pos ampCols c) cs := rfl
      _ = runFrames bucket bins (pos + c.length) (processChunk bucket bins pos ampCols c) cs.flatten :=
          ih hcs _ _
      _ = runFrames bucket bins (pos + c.length)
            (runFrames bucket bins pos ampCols c) cs.flatten := by
          rw [processChunk_eq_runFrames bucket bins c hc]
      _ = runFrames bucket bins pos ampCols (c ++ cs.flatten) :=
          (runFrames_append bucket bins c cs.flatten pos ampCols).symm
      _ = runFrames bucket bins pos ampCols (c :: cs).flatten := by
          rw [List.flatten_cons]

/-- C1: for every file with `frameCount > 0`, the chunked decimation loop of
`WaveformJob.run` is exactly the per-frame peak-hold decimation: each streamed
frame is assigned to the bin `floor(absolutePosition / bucket)` clamped to
`bins - 1`, and that bin's per-channel value is updated to the maximum of its
current value and the frame's absolute sample value — never an average.
Stated as: running the source's chunked loop over any chunked reading of the
stream (all chunks rectangular, as numpy arrays are) equals folding the
spec-side `frameStep` over the individual frames in order. -/
theorem c1_peak_hold_decimation (bucket bins : ℕ) (chunks : List (List (List ℚ)))
    (ampCols : List (List ℚ)) (hrect : ∀ chunk ∈ chunks, Rectangular chunk) :
    runChunks bucket bins 0 ampCols chunks = runFrames bucket bins 0 ampCols chunks.flatten :=
  runChunks_eq_runFrames bucket bins chunks hrect 0 ampCols

theorem c1_peak_hold_decimation_witness :
    (∀ chunk ∈ [[[(1 : ℚ), 2], [3, (1 : ℚ) / 4]], [[5, 6]]], Rectangular chunk) ∧
      runChunks 2 3 0 [[0, 0, 0], [0, 0, 0]] [[[(1 : ℚ), 2], [3, (1 : ℚ) / 4]], [[5, 6]]] =
        runFrames 2 3 0 [[0, 0, 0], [0, 0, 0]]
          ([[[(1 : ℚ), 2], [3, (1 : ℚ) / 4]], [[5, 6]]] : List (List (List ℚ))).flatten :=
  ⟨by decide, c1_peak_hold_decimation 2 3 _ _ (by decide)⟩

/-- C2: for `frameCount > 0` and `targetBinCount ≥ 1` the engine's
`bucket = max(1, ceil(F / T))` and `bins = max(1, ceil(F / bucket))` reduce to
the plain ceilings (the `max 1` guards are redundant there), and the resulting
bin count satisfies `1 ≤ bins ≤ targetBinCount`. -/
theorem c2_bucket_bins_bounds (F T : ℕ) (hF : 0 < F) (hT : 1 ≤ T) :
    bucketOf F T = (F + T - 1) / T ∧
      binsOf F (bucketOf F T) = (F + bucketOf F T - 1) / bucketOf F T ∧
      1 ≤ binsOf F (bucketOf F T) ∧ binsOf F (bucketOf F T) ≤ T := by
  have hq1 : 1 ≤ (F + T - 1) / T := by
    rw [Nat.le_div_iff_mul_le (by omega : 0 < T)]
    omega
  have hbucket : bucketOf F T = (F + T - 1) / T := by
    unfold bucketOf
    omega
  have hBpos : 0 < bucketOf F T := by
    unfold bucketOf
    omega
  -- `F ≤ T * bucket`: the ceiling of `F / T` times `T` covers `F`.
  have hFB : F ≤ T * bucketOf F T := by
    rw [hbucket]
    have hq := Nat.div_add_mod (F + T - 1) T
    have hr : (F + T - 1) % T < T := Nat.mod_lt _ (by omega)
    generalize hP : T * ((F + T - 1) / T) = P at hq ⊢
    omega
  have hbins1 : 1 ≤ (F + bucketOf F T - 1) / bucketOf F T := by
    rw [Nat.le_div_iff_mul_le hBpos]
    omega
  have hbinsEq : binsOf F (bucketOf F T) = (F + bucketOf F T - 1) / bucketOf F T := by
    unfold binsOf
    omega
  refine ⟨hbucket, hbinsEq, ?_, ?_⟩
  · unfold binsOf
    omega
  · rw [hbinsEq]
    have hdiv : (F + bucketOf F T - 1) / bucketOf F T < T + 1 := by
      rw [Nat.div_lt_iff_lt_mul hBpos]
      have hmul : (T + 1) * bucketOf F T = T * bucketOf F T + bucketOf F T := by ring
      rw [hmul]
      generalize hP : T * bucketOf F T = P at hFB ⊢
      omega
    omega

theorem c2_bucket_bins_bounds_witness :
    0 < 48000 ∧ 1 ≤ 100 ∧
      (bucketOf 48000 100 = (48000 + 100 - 1) / 100 ∧
        binsOf 48000 (bucketOf 48000 100) =
          (48000 + bucketOf 48000 100 - 1) / bucketOf 48000 100 ∧
        1 ≤ binsOf 48000 (bucketOf 48000 100) ∧ binsOf 48000 (bucketOf 48000 100) ≤ 100) :=
  ⟨by decide, by decide, c2_bucket_bins_bounds 48000 100 (by decide) (by decide)⟩

/-- Sanity: the spec's scenario — 1 second of mono 48kHz audio at
`targetBins = 100` gives `bucket = 480` and `bins = 100`. -/
theorem bucket_bins_scenario_48k :
    bucketOf 48000 100 = 480 ∧ binsOf 48000 (bucketOf 48000 100) = 100 := by
  constructor <;> rfl

theorem maxAt_nil (pairs : List (ℕ × ℚ)) : maxAt [] pairs = [] := by
  induction pairs with
  | nil => rfl
  | cons p ps ih => simpa [maxAt] using ih

/-- C10: when a chunk's channel count differs from the accumulator's
(header-probed) channel count, `WaveformJob.run` updates only the first
`min(headerChannels, chunkChannels)` accumulator columns: the shape of the
accumulator is preserved and every column at an index at or beyond that
minimum is left untouched (extra chunk channels are silently ignored, and no
out-of-range accumulator column is ever addressed). -/
theorem c10_chunk_channel_mismatch_safety (bucket bins pos : ℕ)
    (ampCols chunk : List (List ℚ)) (c : ℕ)
    (hc : min ampCols.length (chunkWidth chunk) ≤ c) :
    (processChunk bucket bins pos ampCols chunk).length = ampCols.length ∧
      (processChunk bucket bins pos ampCols chunk).getD c [] = ampCols.getD c [] := by
  constructor
  · unfold processChunk
    exact length_mapWithIndex _ _
  · unfold processChunk
    rw [getD_mapWithIndex _ _ _ _ (by
      by_cases h : c < min ampCols.length (chunkWidth chunk)
      · rw [if_pos h, maxAt_nil]
      · rw [if_neg h])]
    rw [if_neg (by omega)]

theorem c10_chunk_channel_mismatch_safety_witness :
    min ([[(0 : ℚ), 0], [0, 0]] : List (List ℚ)).length (chunkWidth [[1, 2, 3]]) ≤ 2 ∧
      ((processChunk 1 2 0 [[0, 0], [0, 0]] [[1, 2, 3]]).length =
          ([[(0 : ℚ), 0], [0, 0]] : List (List ℚ)).length ∧
        (processChunk 1 2 0 [[0, 0], [0, 0]] [[1, 2, 3]]).getD 2 [] =
          ([[(0 : ℚ), 0], [0, 0]] : List (List ℚ)).getD 2 []) :=
  ⟨by decide, c10_chunk_channel_mismatch_safety 1 2 0 _ _ 2 (by decide)⟩

theorem clip01_mem_unit (q : ℚ) : 0 ≤ clip01 q ∧ clip01 q ≤ 1 := by
  unfold clip01
  exact ⟨le_min (by norm_num) (le_max_left 0 q), min_le_left 1 _⟩

/-- C3 (amended): every waveform amplitude array delivered for rendering goes
through `_align_wave_channels`, and every entry of its output lies in
`[0, 1]`: values are clamped to `[0, 1]` after sanitizing non-finite cells
(NaN and -inf to 0, +inf to 1). -/
theorem c3_amplitude_in_unit_interval (x : List ℚ) (amp : List (List FVal))
    (row : List ℚ) (hrow : row ∈ (alignWaveChannels x amp).2)
    (q : ℚ) (hq : q ∈ row) : 0 ≤ q ∧ q ≤ 1 := by
  unfold alignWaveChannels at hrow
  by_cases h : x.length = 0 ∨ (amp.map List.length).sum = 0
  · rw [if_pos h] at hrow
    simp at hrow
  · rw [if_neg h] at hrow
    simp only [List.mem_map] at hrow
    obtain ⟨row0, _, hrow0⟩ := hrow
    subst hrow0
    simp only [List.mem_map] at hq
    obtain ⟨v, _, hv⟩ := hq
    subst hv
    exact clip01_mem_unit _

theorem c3_amplitude_in_unit_interval_witness :
    ([(1 : ℚ)] ∈ (alignWaveChannels [0] [[FVal.fin 2]]).2) ∧
      ((1 : ℚ) ∈ [(1 : ℚ)]) ∧ (0 ≤ (1 : ℚ) ∧ (1 : ℚ) ≤ 1) :=
  ⟨by decide, by decide,
    c3_amplitude_in_unit_interval [0] [[FVal.fin 2]] [1] (by decide) 1 (by decide)⟩

/-- C3 counterexample to the claim as stated: the claim says non-finite
values are sanitized to 0, but `_align_wave_channels` maps `+inf` to 1
(`np.nan_to_num(..., posinf=1.0, ...)` followed by the clip): a `+inf`
amplitude cell is delivered as 1, not 0. -/
theorem c3_posinf_counterexample :
    (alignWaveChannels [0] [[FVal.pinf]]).2 = [[1]] ∧ ¬ ((1 : ℚ) = 0) := by
  constructor
  · decide
  · norm_num

theorem runJobLoop_cancelled (bucket bins : ℕ) (flag : ℕ → Bool)
    (hmono : ∀ s t, s ≤ t → flag s = true → flag t = true)
    (chunks : List (List (List ℚ))) :
    ∀ (t pos : ℕ) (ampCols : List (List ℚ)),
      flag (t + chunks.length + 1) = true →
      runJobLoop bucket bins flag t pos chunks ampCols = none := by
  induction chunks with
  | nil =>
    intro t pos ampCols hset
    unfold runJobLoop
    rw [if_pos (by simpa using hset)]
  | cons c cs ih =>
    intro t pos ampCols hset
    unfold runJobLoop
    by_cases hf : flag t = true
    · rw [if_pos hf, if_pos (hmono t (t + 1) (by omega) hf)]
    · rw [if_neg hf]
      have harith : t + (c :: cs).length + 1 = (t + 1) + cs.length + 1 := by
        simp only [List.length_cons]
        omega
      rw [harith] at hset
      exact ih (t + 1) (pos + c.length) _ hset

/-- C4: (a) if the cooperative cancellation flag (monotone: once set it
stays set) is observed set by the final post-loop check — in particular
whenever it was set before the streaming loop completed — then
`WaveformJob.run` emits no final result; and (b) the scheduler's finished
callback `_on_active_wave_finished` discards any delivery whose `requestId`
differs from the current Active job's id: the state is unchanged and
nothing is rendered. -/
theorem c4_cancel_discard (bucket bins : ℕ) (flag : ℕ → Bool)
    (chunks : List (List (List ℚ))) (ampCols : List (List ℚ))
    (hmono : ∀ s t, s ≤ t → flag s = true → flag t = true)
    (hset : flag (chunks.length + 1) = true)
    (st : SchedState) (requestId : ℕ) (path : String)
    (x : List ℚ) (amp : List (List FVal))
    (hrid : requestId ≠ st.activeRequestId) :
    runJobLoop bucket bins flag 0 0 chunks ampCols = none ∧
      onActiveWaveFinished st requestId path x amp = (st, false) := by
  constructor
  · exact runJobLoop_cancelled bucket bins flag hmono chunks 0 0 ampCols (by simpa using hset)
  · unfold onActiveWaveFinished
    rw [if_pos (Or.inl hrid)]

theorem c4_cancel_discard_witness :
    (∀ s t : ℕ, s ≤ t → true = true → true = true) ∧
      (3 : ℕ) ≠ 5 ∧
      (runJobLoop 1 1 (fun _ => true) 0 0 [[[(1 : ℚ)]]] [[0]] = none ∧
        onActiveWaveFinished
            ⟨[], [], 5, "a", "s", false, true, false, "", [], [], ["a"], some 0⟩
            3 "a" [] [] =
          (⟨[], [], 5, "a", "s", false, true, false, "", [], [], ["a"], some 0⟩, false)) :=
  ⟨fun _ _ _ h => h, by decide,
    c4_cancel_discard 1 1 (fun _ => true) [[[(1 : ℚ)]]] [[0]]
      (fun _ _ _ h => h) rfl
      ⟨[], [], 5, "a", "s", false, true, false, "", [], [], ["a"], some 0⟩
      3 "a" [] [] (by decide)⟩

theorem dictSet_length_le [DecidableEq κ] (d : List (κ × β)) (k : κ) (v : β) :
    (dictSet d k v).length ≤ d.length + 1 := by
  unfold dictSet
  split
  · simp
  · simp

theorem cacheStore_capacity (cache : WaveCache) (path : String) (e : WaveEntry)
    (h : cache.length ≤ 40) : (cacheStore cache path e).length ≤ 40 := by
  unfold cacheStore
  have hlen : (dictSet cache path e).length ≤ cache.length + 1 :=
    dictSet_length_le cache path e
  cases hm : dictSet cache path e with
  | nil => simp
  | cons e0 rest =>
    rw [hm] at hlen
    simp only [List.length_cons] at hlen
    by_cases h40 : 40 < (e0 :: rest).length
    · rw [if_pos h40]
      have hpop : dictPop (e0 :: rest) e0.1 = rest := by
        unfold dictPop
        rw [List.eraseP_cons_of_pos (by simp)]
      show (dictPop (e0 :: rest) e0.1).length ≤ 40
      rw [hpop]
      simp only [List.length_cons] at h40
      omega
    · rw [if_neg h40]
      simp only [List.length_cons] at h40 ⊢
      omega

theorem cacheStore_evicts_first (cache : WaveCache) (path : String) (e : WaveEntry)
    (hover : 40 < (dictSet cache path e).length) :
    cacheStore cache path e = (dictSet cache path e).tail := by
  unfold cacheStore
  cases hm : dictSet cache path e with
  | nil =>
    rw [hm] at hover
    simp at hover
  | cons e0 rest =>
    rw [hm] at hover
    rw [if_pos hover]
    have hpop : dictPop (e0 :: rest) e0.1 = rest := by
      unfold dictPop
      rw [List.eraseP_cons_of_pos (by simp)]
    show dictPop (e0 :: rest) e0.1 = (e0 :: rest).tail
    rw [hpop]
    rfl

theorem foldl_applyCacheOp_length :
    ∀ (ops : List CacheOp) (cache : WaveCache),
      cache.length ≤ 40 → (ops.foldl applyCacheOp cache).length ≤ 40 := by
  intro ops
  induction ops with
  | nil => intro cache h; exact h
  | cons op rest ih =>
    intro cache h
    cases op with
    | store path e => exact ih _ (cacheStore_capacity cache path e h)
    | clear => exact ih [] (by decide)

theorem startNextPreloadLoop_started (sigF : String → Option String) :
    ∀ (fuel : ℕ) (st : SchedState) (q : String),
      (startNextPreloadLoop sigF fuel st).2 = some q →
      ∃ sv, sigF q = some sv ∧ cacheGet st.waveCache q sv = none := by
  intro fuel
  induction fuel with
  | zero =>
    intro st q h
    rw [startNextPreloadLoop] at h
    exact Option.noConfusion h
  | succ fuel ih =>
    intro st q h
    rw [startNextPreloadLoop] at h
    cases hq : st.preloadQueue with
    | nil =>
      rw [hq] at h
      exact Option.noConfusion h
    | cons path rest =>
      rw [hq] at h
      dsimp only at h
      by_cases hact : path = (preloadPopState st path rest).activePath
      · rw [if_pos hact] at h
        exact ih (preloadPopState st path rest) q h
      · rw [if_neg hact] at h
        cases hs : sigF path with
        | none =>
          rw [hs] at h
          exact ih (preloadPopState st path rest) q h
        | some sv =>
          rw [hs] at h
          dsimp only at h
          by_cases hc : (cacheGet (preloadPopState st path rest).waveCache path sv).isSome
          · rw [if_pos hc] at h
            exact ih (preloadPopState st path rest) q h
          · rw [if_neg hc] at h
            dsimp only at h
            injection h with h
            subst h
            refine ⟨sv, hs, ?_⟩
            have hsame : cacheGet st.waveCache path sv
                = cacheGet (preloadPopState st path rest).waveCache path sv := rfl
            rw [hsame]
            exact Option.not_isSome_iff_eq_none.mp hc

/-- C9 (amended): starting from the initially empty `wave_cache`, after any
sequence of stores and clears the waveform result cache holds at most 40
entries; when a store overflows the capacity it evicts the first entry in
insertion order — the oldest-inserted key, irrespective of how recently it
was looked up; and a cache hit for `(path, signature)` in
`_load_waveform_for_track` takes the `useCache` branch and starts no decode
job for the requested path (that branch calls `_start_next_preload`, which
may start a preload decode job for a different queued path, but never for
the path that just hit, whose signature still matches). -/
theorem c9_capacity_eviction_hit (ops : List CacheOp) (cache : WaveCache)
    (path : String) (e : WaveEntry) (sigF : String → Option String)
    (st : SchedState) (p s : String) (r : WaveEntry)
    (hhit : cacheGet st.waveCache p s = some r) (hsig : sigF p = some s) :
    (ops.foldl applyCacheOp []).length ≤ 40 ∧
      (40 < (dictSet cache path e).length →
        cacheStore cache path e = (dictSet cache path e).tail) ∧
      (loadWaveformForTrack sigF st p s).2.1 = LoadAction.useCache ∧
      ∀ q, (loadWaveformForTrack sigF st p s).2.2 = some q → q ≠ p := by
  have hwc : (removeFromPreloadQueue st p).waveCache = st.waveCache := by
    unfold removeFromPreloadQueue
    split <;> rfl
  have hbr : loadWaveformBranches (removeFromPreloadQueue st p) p s =
      (removeFromPreloadQueue st p, LoadAction.useCache) := by
    unfold loadWaveformBranches
    rw [hwc, hhit]
  have hload : loadWaveformForTrack sigF st p s =
      ((startNextPreload sigF (removeFromPreloadQueue st p)).1, LoadAction.useCache,
        (startNextPreload sigF (removeFromPreloadQueue st p)).2) := by
    unfold loadWaveformForTrack
    rw [hbr]
  refine ⟨foldl_applyCacheOp_length ops [] (by decide),
    fun hover => cacheStore_evicts_first cache path e hover, ?_, ?_⟩
  · rw [hload]
  · intro q hq hqp
    subst hqp
    rw [hload] at hq
    simp only at hq
    unfold startNextPreload at hq
    by_cases hpt : (removeFromPreloadQueue st q).preloadThread
    · rw [if_pos hpt] at hq
      exact Option.noConfusion hq
    · rw [if_neg hpt] at hq
      obtain ⟨sv, hsv, hnone⟩ := startNextPreloadLoop_started sigF _ _ q hq
      rw [hsig] at hsv
      injection hsv with hsv
      subst hsv
      rw [hwc] at hnone
      rw [hnone] at hhit
      exact Option.noConfusion hhit

theorem c9_capacity_eviction_hit_witness :
    cacheGet [("a", (⟨"s", [], []⟩ : WaveEntry))] "a" "s" = some ⟨"s", [], []⟩ ∧
      (fun _ : String => some "s") "a" = some "s" ∧
      (([CacheOp.store "x" ⟨"s", [], []⟩].foldl applyCacheOp []).length ≤ 40 ∧
        (40 < (dictSet ([] : WaveCache) "x" ⟨"s", [], []⟩).length →
          cacheStore [] "x" ⟨"s", [], []⟩ =
            (dictSet ([] : WaveCache) "x" ⟨"s", [], []⟩).tail) ∧
        (loadWaveformForTrack (fun _ => some "s")
            ⟨[("a", ⟨"s", [], []⟩)], [], 0, "", "", false, false, false, "", [], [], ["a"], some 0⟩
            "a" "s").2.1 = LoadAction.useCache ∧
        ∀ q, (loadWaveformForTrack (fun _ => some "s")
            ⟨[("a", ⟨"s", [], []⟩)], [], 0, "", "", false, false, false, "", [], [], ["a"], some 0⟩
            "a" "s").2.2 = some q → q ≠ "a") :=
  ⟨by decide, by decide,
    c9_capacity_eviction_hit [CacheOp.store "x" ⟨"s", [], []⟩] [] "x" ⟨"s", [], []⟩
      (fun _ => some "s")
      ⟨[("a", ⟨"s", [], []⟩)], [], 0, "", "", false, false, false, "", [], [], ["a"], some 0⟩
      "a" "s" ⟨"s", [], []⟩ (by decide) (by decide)⟩

set_option maxRecDepth 40000 in
/-- C9 counterexample, two parts.  (1) Eviction is not least-recently-used:
fill the cache with paths "0".."39", look "0" up (making it the most
recently used and "1" the least recently used), then store "40" — the
eviction removes "0", the oldest-inserted entry, while "1" survives.
(2) A cache hit does not short-circuit all decoding: with "a" cached and
"b" waiting in the preload queue, requesting "a" hits the cache yet starts
a preload decode job for "b" via `_start_next_preload`. -/
theorem c9_counterexample :
    (cacheGet (((List.range 40).map (fun i => toString i)).foldl
          (fun c p => cacheStore c p ⟨"s", [], []⟩) []) "0" "s").isSome = true ∧
      cacheGet (cacheStore (((List.range 40).map (fun i => toString i)).foldl
            (fun c p => cacheStore c p ⟨"s", [], []⟩) []) "40" ⟨"s", [], []⟩)
          "0" "s" = none ∧
      (cacheGet (cacheStore (((List.range 40).map (fun i => toString i)).foldl
            (fun c p => cacheStore c p ⟨"s", [], []⟩) []) "40" ⟨"s", [], []⟩)
          "1" "s").isSome = true ∧
      (loadWaveformForTrack (fun _ => some "s")
          ⟨[("a", ⟨"s", [], []⟩)], [], 0, "", "", false, false, false, "",
            ["b"], ["b"], ["a", "b"], some 0⟩
          "a" "s").2.1 = LoadAction.useCache ∧
      (loadWaveformForTrack (fun _ => some "s")
          ⟨[("a", ⟨"s", [], []⟩)], [], 0, "", "", false, false, false, "",
            ["b"], ["b"], ["a", "b"], some 0⟩
          "a" "s").2.2 = some "b" := by
  refine ⟨?_, ?_, ?_, ?_, ?_⟩ <;> decide

theorem nonneg_getD {row : List ℚ} (h : ∀ v ∈ row, 0 ≤ v) (j : ℕ) :
    0 ≤ row.getD j 0 := by
  induction row generalizing j with
  | nil => simp
  | cons a l ih =>
    cases j with
    | zero => exact h a (by simp)
    | succ j => exact ih (fun v hv => h v (by simp [hv])) j

theorem rawRow_nonneg (matrixEnabled : Bool) (base : List (List ℕ))
    (outputCount src : ℕ) :
    ∀ v ∈ rawRow matrixEnabled base outputCount src, 0 ≤ v := by
  intro v hv
  have hmap : ∀ w ∈ (List.range outputCount).map (fun out =>
      if min src (base.length - 1) < base.length ∧ out < baseCols base ∧
          ((base.getD (min src (base.length - 1)) []).getD out 0) ≠ 0
      then (1 : ℚ) else 0), 0 ≤ w := by
    intro w hw
    simp only [List.mem_map] at hw
    obtain ⟨out, _, rfl⟩ := hw
    split <;> norm_num
  unfold rawRow at hv
  split at hv
  · rcases List.mem_or_eq_of_mem_set hv with h | h
    · exact hmap v h
    · rw [h]; norm_num
  · exact hmap v hv

theorem rawMatrix_nonneg (matrixEnabled : Bool) (base : List (List ℕ))
    (sourceCount outputCount : ℕ) :
    ∀ row ∈ rawMatrix matrixEnabled base sourceCount outputCount, ∀ v ∈ row, 0 ≤ v := by
  intro row hrow
  unfold rawMatrix at hrow
  simp only [List.mem_map] at hrow
  obtain ⟨src, _, rfl⟩ := hrow
  exact rawRow_nonneg matrixEnabled base outputCount src

theorem rowNormalize_nonneg {m : List (List ℚ)}
    (h : ∀ row ∈ m, ∀ v ∈ row, 0 ≤ v) :
    ∀ row ∈ rowNormalize m, ∀ v ∈ row, 0 ≤ v := by
  intro row hrow v hv
  unfold rowNormalize at hrow
  simp only [List.mem_map] at hrow
  obtain ⟨row0, hrow0, heq⟩ := hrow
  subst heq
  split at hv
  case isTrue hs =>
    simp only [List.mem_map] at hv
    obtain ⟨v0, hv0, rfl⟩ := hv
    exact div_nonneg (h row0 hrow0 v0 hv0) (le_of_lt (lt_trans one_pos hs))
  case isFalse => exact h row0 hrow0 v hv

theorem colSum_nonneg {m : List (List ℚ)}
    (h : ∀ row ∈ m, ∀ v ∈ row, 0 ≤ v) (j : ℕ) : 0 ≤ colSum m j := by
  unfold colSum
  apply List.sum_nonneg
  intro x hx
  simp only [List.mem_map] at hx
  obtain ⟨row, hrow, rfl⟩ := hx
  exact nonneg_getD (h row hrow) j

theorem colAbsSum_eq_colSum {m : List (List ℚ)}
    (h : ∀ row ∈ m, ∀ v ∈ row, 0 ≤ v) (j : ℕ) : colAbsSum m j = colSum m j := by
  unfold colAbsSum colSum
  exact congrArg List.sum
    (List.map_congr_left (fun row hrow => abs_of_nonneg (nonneg_getD (h row hrow) j)))

theorem colSum_colNormalize (m : List (List ℚ)) (j : ℕ) :
    colSum (colNormalize m) j =
      if 1 < colAbsSum m j then colSum m j / colAbsSum m j else colSum m j := by
  unfold colNormalize colSum
  rw [List.map_map]
  have hrow : ∀ row ∈ m, (Function.comp (fun r : List ℚ => r.getD j 0)
        (fun row => mapWithIndex
          (fun i v => if 1 < colAbsSum m i then v / colAbsSum m i else v) row)) row
      = (fun row : List ℚ =>
          if 1 < colAbsSum m j then row.getD j 0 / colAbsSum m j else row.getD j 0) row := by
    intro row _
    simp only [Function.comp]
    exact getD_mapWithIndex _ row j 0 (by split <;> simp)
  rw [List.map_congr_left hrow]
  by_cases hc : 1 < colAbsSum m j
  · simp only [if_pos hc]
    simp only [div_eq_mul_inv]
    rw [List.sum_map_mul_right]
  · simp only [if_neg hc]

theorem colSum_colNormalize_le {m : List (List ℚ)}
    (h : ∀ row ∈ m, ∀ v ∈ row, 0 ≤ v) (j : ℕ) :
    0 ≤ colSum (colNormalize m) j ∧ colSum (colNormalize m) j ≤ 1 := by
  have hs := colSum_nonneg h j
  have habs := colAbsSum_eq_colSum h j
  rw [colSum_colNormalize m j, habs]
  by_cases hc : 1 < colSum m j
  · rw [if_pos hc]
    have hpos : 0 < colSum m j := lt_trans one_pos hc
    exact ⟨div_nonneg hs (le_of_lt hpos), le_of_eq (div_self (ne_of_gt hpos))⟩
  · rw [if_neg hc]
    exact ⟨hs, le_of_not_lt hc⟩

/-- C5: outside explicit matrix mode, for every routing mode, stored boolean
matrix and channel counts, the runtime routing matrix produced by the
two-pass row-then-column normalization has every output column's summed
input gain in `[0, 1]` — in particular no column sums above 1.0 (this covers
the 6-channel-source-to-stereo-preset case). -/
theorem c5_column_gain_bounded (mode : String) (routingMatrix : List (List ℕ))
    (sourceChannels outputChannels j : ℕ) :
    0 ≤ colSum
        (buildRuntimeRoutingMatrix false mode routingMatrix sourceChannels outputChannels) j ∧
      colSum
        (buildRuntimeRoutingMatrix false mode routingMatrix sourceChannels outputChannels) j ≤ 1 := by
  have hb : buildRuntimeRoutingMatrix false mode routingMatrix sourceChannels outputChannels
      = colNormalize (rowNormalize
          (rawMatrix false (baseMatrixFor false mode routingMatrix)
            (max 1 sourceChannels) (max 1 outputChannels))) := rfl
  rw [hb]
  exact colSum_colNormalize_le
    (rowNormalize_nonneg (rawMatrix_nonneg false _ _ _)) j

/-- C8 counterexample: two different boolean-matrix configurations (the
identity, and the identity with the extra crosspoint `[5][6]` checked) over
a mono source and mono output compute byte-identical runtime matrices, yet
their cache keys differ, because the route token embeds the serialized
boolean matrix.  The cached render is therefore not reused, contradicting
the claim. -/
theorem c8_same_runtime_different_key :
    buildRuntimeRoutingMatrix true "auto" defaultRoutingMatrix 1 1 =
      buildRuntimeRoutingMatrix true "auto"
        ((List.range 12).map (fun i => (List.range 12).map (fun j =>
          if i = j ∨ (i = 5 ∧ j = 6) then 1 else 0))) 1 1 ∧
      defaultRoutingMatrix ≠
        ((List.range 12).map (fun i => (List.range 12).map (fun j =>
          if i = j ∨ (i = 5 ∧ j = 6) then 1 else 0))) ∧
      resolveCacheKey "sig" "auto" true defaultRoutingMatrix 1 1 ≠
        resolveCacheKey "sig" "auto" true
          ((List.range 12).map (fun i => (List.range 12).map (fun j =>
            if i = j ∨ (i = 5 ∧ j = 6) then 1 else 0))) 1 1 := by
  refine ⟨?_, ?_, ?_⟩ <;> decide

/-- C8 (amended): the cache key is determined by the file signature and the
configuration token alone — two configurations whose (12×12-normalized)
boolean matrices coincide share the cache key for the same file, mode,
matrix flag and channel counts; the runtime-matrix digest adds no dedup
beyond that, since the serialized boolean matrix is part of the token. -/
theorem c8_clone_determines_key (sig mode : String) (matrixEnabled : Bool)
    (m1 m2 : List (List ℕ)) (sourceChannels outputChannels : ℕ)
    (h : cloneRoutingMatrix m1 = cloneRoutingMatrix m2) :
    resolveCacheKey sig mode matrixEnabled m1 sourceChannels outputChannels =
      resolveCacheKey sig mode matrixEnabled m2 sourceChannels outputChannels := by
  unfold resolveCacheKey routeToken serializeRoutingMatrix buildRuntimeRoutingMatrix
    baseMatrixFor
  rw [h]

theorem c8_clone_determines_key_witness :
    cloneRoutingMatrix [[1]] = cloneRoutingMatrix [[2]] ∧
      resolveCacheKey "sig" "auto" true [[1]] 1 1 =
        resolveCacheKey "sig" "auto" true [[2]] 1 1 :=
  ⟨by decide, c8_clone_determines_key "sig" "auto" true [[1]] [[2]] 1 1 (by decide)⟩

theorem fsRemove_not_mem (fs : List String) (p : String) : p ∉ fsRemove fs p := by
  simp [fsRemove]

theorem renderLoop_ioError (matrix : List (List ℚ)) (srcCh outCh : ℕ)
    (source tmp routed : String) (steps : List ReadStep) :
    ∀ (fs : List String) (acc : List (List ℚ)), ReadStep.ioError ∈ steps →
      renderLoop matrix srcCh outCh source tmp routed fs steps acc =
        ⟨fsRemove fs tmp, source, none⟩ := by
  induction steps with
  | nil =>
    intro fs acc h
    cases h
  | cons s rest ih =>
    intro fs acc h
    cases s with
    | ioError => rfl
    | chunk data =>
      have hrest : ReadStep.ioError ∈ rest := by
        rcases List.mem_cons.mp h with h1 | h1
        · exact ReadStep.noConfusion h1
        · exact h1
      exact ih fs _ hrest

/-- C7: if header probing fails, or any read step of the routed-file render
raises an I/O error, `_resolve_playback_source` hands back the original
source path, the temporary output file does not exist afterwards, and no
rendered output is produced — a routing failure never prevents playback. -/
theorem c7_routing_failure_fallback (probeOk : Bool) (matrix : List (List ℚ))
    (srcCh outCh : ℕ) (fs : List String) (source tmp routed : String)
    (steps : List ReadStep) (htmp : tmp ∉ fs)
    (herr : probeOk = false ∨ ReadStep.ioError ∈ steps) :
    (resolveRender probeOk matrix srcCh outCh fs source tmp routed steps).playbackPath
        = source ∧
      tmp ∉ (resolveRender probeOk matrix srcCh outCh fs source tmp routed steps).fs ∧
      (resolveRender probeOk matrix srcCh outCh fs source tmp routed steps).written
        = none := by
  cases probeOk with
  | false =>
    unfold resolveRender
    exact ⟨rfl, htmp, rfl⟩
  | true =>
    rcases herr with h | h
    · exact Bool.noConfusion h
    · unfold resolveRender
      rw [if_pos rfl, renderLoop_ioError matrix srcCh outCh source tmp routed steps _ [] h]
      exact ⟨rfl, fsRemove_not_mem _ tmp, rfl⟩

theorem c7_routing_failure_fallback_witness :
    ("t" ∉ ([] : List String)) ∧
      ((true = false) ∨ ReadStep.ioError ∈ [ReadStep.ioError]) ∧
      ((resolveRender true [[1]] 1 1 [] "src" "t" "r" [ReadStep.ioError]).playbackPath
          = "src" ∧
        "t" ∉ (resolveRender true [[1]] 1 1 [] "src" "t" "r" [ReadStep.ioError]).fs ∧
        (resolveRender true [[1]] 1 1 [] "src" "t" "r" [ReadStep.ioError]).written
          = none) :=
  ⟨by decide, Or.inr (by decide),
    c7_routing_failure_fallback true [[1]] 1 1 [] "src" "t" "r" [ReadStep.ioError]
      (by decide) (Or.inr (by decide))⟩

theorem find_decomp {α : Type} {p : α → Bool} :
    ∀ {l : List α} {e : α}, l.find? p = some e →
      ∃ l1 l2, l = l1 ++ e :: l2 ∧ (∀ x ∈ l1, p x = false) ∧ p e = true := by
  intro l
  induction l with
  | nil => intro e h; cases h
  | cons a l ih =>
    intro e h
    by_cases hpa : p a = true
    · rw [List.find?_cons_of_pos l hpa] at h
      injection h with h
      subst h
      refine ⟨[], l, rfl, ?_, hpa⟩
      intro x hx
      cases hx
    · rw [List.find?_cons_of_neg l hpa] at h
      obtain ⟨l1, l2, hdec, h1, h2⟩ := ih h
      refine ⟨a :: l1, l2, by rw [hdec, List.cons_append], ?_, h2⟩
      intro x hx
      rcases List.mem_cons.mp hx with rfl | hx
      · exact Bool.not_eq_true _ ▸ hpa
      · exact h1 x hx

theorem eraseP_append_of_forall_neg {α : Type} {q : α → Bool} :
    ∀ (l1 : List α) (e : α) (l2 : List α),
      (∀ x ∈ l1, q x = false) → q e = true →
      (l1 ++ e :: l2).eraseP q = l1 ++ l2 := by
  intro l1
  induction l1 with
  | nil =>
    intro e l2 _ hq
    simpa using List.eraseP_cons_of_pos hq
  | cons a l1 ih =>
    intro e l2 h1 hq
    have ha : q a = false := h1 a (by simp)
    simp only [List.cons_append]
    rw [List.eraseP_cons_of_neg (by simp [ha])]
    rw [ih e l2 (fun x hx => h1 x (by simp [hx])) hq]

theorem trimLoop_spec (absPath : String → String) (curAbs : String) (maxE : ℕ)
    (hca : curAbs ≠ "") :
    ∀ (fuel : ℕ) (cache : List (String × String)) (deleted : List String),
      (cache.map Prod.fst).Nodup →
      (∀ e ∈ cache, absPath e.2 = curAbs →
          e ∈ (trimLoop absPath curAbs maxE fuel cache deleted).1) ∧
        (∃ t, (trimLoop absPath curAbs maxE fuel cache deleted).2 = deleted ++ t ∧
          List.IsPrefix t ((cache.filter
            (fun e => decide (¬ absPath e.2 = curAbs))).map Prod.snd)) := by
  intro fuel
  induction fuel with
  | zero =>
    intro cache deleted _
    refine ⟨fun e he _ => ?_, ⟨[], by simp [trimLoop], List.nil_prefix⟩⟩
    simpa only [trimLoop] using he
  | succ fuel ih =>
    intro cache deleted hnodup
    by_cases hlen : cache.length ≤ maxE
    · have hstep0 : trimLoop absPath curAbs maxE (fuel + 1) cache deleted
          = (cache, deleted) := by
        simp only [trimLoop]
        rw [if_pos hlen]
      refine ⟨fun e he _ => ?_, ⟨[], ?_, List.nil_prefix⟩⟩
      · rw [hstep0]
        exact he
      · rw [hstep0]
        simp
    · cases hfind : cache.find?
          (fun e => decide (¬ (curAbs ≠ "" ∧ absPath e.2 = curAbs))) with
      | none =>
        have hstep0 : trimLoop absPath curAbs maxE (fuel + 1) cache deleted
            = (cache, deleted) := by
          simp only [trimLoop]
          rw [if_neg hlen, hfind]
        refine ⟨fun e he _ => ?_, ⟨[], ?_, List.nil_prefix⟩⟩
        · rw [hstep0]
          exact he
        · rw [hstep0]
          simp
      | some e =>
        obtain ⟨l1, l2, hdec, hall, hpe⟩ := find_decomp hfind
        subst hdec
        have hpe' : ¬ absPath e.2 = curAbs := by
          simpa [hca] using hpe
        have hall' : ∀ x ∈ l1, absPath x.2 = curAbs := by
          intro x hx
          have := hall x hx
          simpa [hca] using this
        have hkeys : ((l1 ++ e :: l2).map Prod.fst).Nodup := hnodup
        rw [List.map_append, List.map_cons] at hkeys
        have hdisj := (List.nodup_append.mp hkeys).2.2
        have hl1e : ∀ x ∈ l1, (x.1 = e.1) = False := by
          intro x hx
          simp only [eq_iff_iff, iff_false]
          intro hxe
          exact hdisj (List.mem_map_of_mem Prod.fst hx) (by simp [hxe])
        have herase : (l1 ++ e :: l2).eraseP (fun x => decide (x.1 = e.1)) = l1 ++ l2 :=
          eraseP_append_of_forall_neg l1 e l2
            (fun x hx => by simp [hl1e x hx]) (by simp)
        have hnodup' : ((l1 ++ l2).map Prod.fst).Nodup := by
          rw [List.map_append]
          have hsub : List.Sublist (l1.map Prod.fst ++ l2.map Prod.fst)
              (l1.map Prod.fst ++ e.1 :: l2.map Prod.fst) :=
            List.Sublist.append_left (List.sublist_cons_self e.1 (l2.map Prod.fst))
              (l1.map Prod.fst)
          exact List.Nodup.sublist hsub hkeys
        have hstep : trimLoop absPath curAbs maxE (fuel + 1) (l1 ++ e :: l2) deleted
            = trimLoop absPath curAbs maxE fuel (l1 ++ l2) (deleted ++ [e.2]) := by
          simp only [trimLoop]
          rw [if_neg hlen, hfind]
          show trimLoop absPath curAbs maxE fuel
              ((l1 ++ e :: l2).eraseP (fun x => decide (x.1 = e.1))) (deleted ++ [e.2])
            = trimLoop absPath curAbs maxE fuel (l1 ++ l2) (deleted ++ [e.2])
          rw [herase]
        obtain ⟨ih1, t, ht1, ht2⟩ := ih (l1 ++ l2) (deleted ++ [e.2]) hnodup'
        constructor
        · intro x hx hprotx
          rw [hstep]
          have hxl : x ∈ l1 ++ l2 := by
            rcases List.mem_append.mp hx with h | h
            · exact List.mem_append.mpr (Or.inl h)
            · rcases List.mem_cons.mp h with rfl | h
              · exact absurd hprotx hpe'
              · exact List.mem_append.mpr (Or.inr h)
          exact ih1 x hxl hprotx
        · refine ⟨e.2 :: t, ?_, ?_⟩
          · rw [hstep, ht1]
            simp
          · have hfl1 : l1.filter (fun x => decide (¬ absPath x.2 = curAbs)) = [] := by
              rw [List.filter_eq_nil_iff]
              intro x hx
              simp [hall' x hx]
            rw [List.filter_append, hfl1, List.filter_cons_of_pos (by simp [hpe'])]
            simp only [List.nil_append, List.map_cons]
            rw [List.cons_prefix_cons]
            refine ⟨rfl, ?_⟩
            rw [List.filter_append, hfl1] at ht2
            simpa using ht2

/-- C6: trimming the routed-file cache never evicts the entry backing the
currently loaded playback source (compared by absolute path, when a source
is loaded): every such entry survives in the trimmed cache, no deleted
backing file matches the current source, and deletion proceeds oldest
first — the deleted paths are a prefix, in insertion order, of the
non-current entries' paths. -/
theorem c6_trim_never_evicts_current (absPath : String → String)
    (currentSource : String) (maxEntries : ℕ) (cache : List (String × String))
    (hcur : currentSource ≠ "") (habs : absPath currentSource ≠ "")
    (hnodup : (cache.map Prod.fst).Nodup) :
    (∀ e ∈ cache, absPath e.2 = absPath currentSource →
        e ∈ (trimRoutedAudioCache absPath currentSource maxEntries cache).1) ∧
      (∀ p ∈ (trimRoutedAudioCache absPath currentSource maxEntries cache).2,
        ¬ absPath p = absPath currentSource) ∧
      List.IsPrefix (trimRoutedAudioCache absPath currentSource maxEntries cache).2
        ((cache.filter
          (fun e => decide (¬ absPath e.2 = absPath currentSource))).map Prod.snd) := by
  unfold trimRoutedAudioCache
  rw [if_neg hcur]
  obtain ⟨h1, t, ht1, ht2⟩ := trimLoop_spec absPath (absPath currentSource)
    (max 1 maxEntries) habs cache.length cache [] hnodup
  rw [ht1]
  refine ⟨h1, ?_, by simpa using ht2⟩
  intro p hp
  simp only [List.nil_append] at hp
  have hpmem : p ∈ (cache.filter
      (fun e => decide (¬ absPath e.2 = absPath currentSource))).map Prod.snd :=
    ht2.sublist.subset hp
  simp only [List.mem_map, List.mem_filter] at hpmem
  obtain ⟨x, ⟨_, hx⟩, rfl⟩ := hpmem
  simpa using hx

theorem c6_trim_never_evicts_current_witness :
    ("c" : String) ≠ "" ∧ (fun s : String => s) "c" ≠ "" ∧
      ([("k1", "c"), ("k2", "o")].map Prod.fst).Nodup ∧
      ((∀ e ∈ [("k1", "c"), ("k2", "o")], (fun s : String => s) e.2 = (fun s : String => s) "c" →
          e ∈ (trimRoutedAudioCache (fun s => s) "c" 1 [("k1", "c"), ("k2", "o")]).1) ∧
        (∀ p ∈ (trimRoutedAudioCache (fun s => s) "c" 1 [("k1", "c"), ("k2", "o")]).2,
          ¬ (fun s : String => s) p = (fun s : String => s) "c") ∧
        List.IsPrefix (trimRoutedAudioCache (fun s => s) "c" 1 [("k1", "c"), ("k2", "o")]).2
          (([("k1", "c"), ("k2", "o")].filter
            (fun e => decide (¬ (fun s : String => s) e.2 = (fun s : String => s) "c"))).map
            Prod.snd)) :=
  ⟨by decide, by decide, by decide,
    c6_trim_never_evicts_current (fun s => s) "c" 1 [("k1", "c"), ("k2", "o")]
      (by decide) (by decide) (by decide)⟩

end AudioPlayer
